import Mathlib

/-!
Verification development for the durable-functions registration layer
(`src/types.ts`) and the replay engine / task / entity model it exposes.
The visible source contains `createOrchestrator`, `createEntityFunction`
and the `app` registration namespace (`activity`, `client`, `httpClient`,
`clientify`); the `Orchestrator`, `Task` and `Entity` classes they delegate
to are not part of the visible source, so those components are modelled
from the specification, as indicated by each definition's doc comment.
-/

namespace DurableJS

/-- JSON-like values exchanged between orchestrations, activities and
entities: inputs, outputs, results and error payloads. -/
inductive Value where
  | vnull
  | vnum (n : Int)
  | vstr (s : String)
deriving DecidableEq, Repr

/-- Retry policy carried by `CallActivityWithRetry` actions and
`RetryableTask`s: `{maxAttempts, firstRetryIntervalMs, backoffCoefficient,
maxRetryIntervalMs, retryTimeoutMs}`.  Intervals and the coefficient are
rationals so that non-integral backoff coefficients are representable. -/
structure RetryOptions where
  maxAttempts : Nat
  firstRetryIntervalMs : ℚ
  backoffCoefficient : ℚ
  maxRetryIntervalMs : ℚ
  retryTimeoutMs : Option ℚ
deriving DecidableEq, Repr

/-- Data-only description of a unit of work the engine asks the host to
schedule.  Tagged variant set from the data model: `CallActivity`,
`CallActivityWithRetry`, `CreateTimer`, `WaitForExternalEvent`,
`CallSubOrchestrator`, `SendEntitySignal`.  The `callActivityWithRetry`
argument order mirrors the `CallActivityWithRetryAction` constructor call
in `app.activity` (name, retry options, input). -/
inductive Action where
  | callActivity (name : String) (input : Option Value)
  | callActivityWithRetry (name : String) (retryOptions : RetryOptions) (input : Option Value)
  | createTimer (fireAtMs : Nat)
  | waitForExternalEvent (name : String)
  | callSubOrchestrator (name : String) (input : Option Value) (instanceId : Option String)
  | sendEntitySignal (entityId : String) (op : String) (input : Option Value)
deriving DecidableEq, Repr

/-- Opaque handle for the orchestration executor a `RetryableTask` would
need as its scheduler argument. -/
structure TaskOrchestrationExecutor where
  id : Nat
deriving DecidableEq, Repr

/-- Task shapes produced by the callable that `app.activity` returns:
`AtomicTask(isCompleted, action)` pairs one Action with completion
bookkeeping; `RetryableTask(backingTask, retryOptions, executor)` wraps a
backing task, a retry policy and the scheduler argument passed at
construction. -/
inductive DurableTask where
  | atomicTask (isCompleted : Bool) (action : Action)
  | retryableTask (backing : DurableTask) (retryOptions : RetryOptions)
      (executor : Option TaskOrchestrationExecutor)
deriving DecidableEq, Repr

/-- Scheduler argument stored in a task: the `executor` field of a
`RetryableTask`; an `AtomicTask` has none. -/
def taskExecutor : DurableTask → Option TaskOrchestrationExecutor
  | .atomicTask _ _ => none
  | .retryableTask _ _ e => e

/-- Call options accepted by the callable returned from `app.activity`
(`CallActivityOptions` in the source): an optional input and optional
retry options. -/
structure CallActivityOptions where
  input : Option Value
  retryOptions : Option RetryOptions
deriving DecidableEq, Repr

/-- JavaScript runtime errors relevant to the embedding: a `TypeError`
raised by a property access on `undefined`. -/
inductive JsError where
  | typeError
deriving DecidableEq, Repr

/-- The value bound to `this` when the callable returned by `app.activity`
runs.  The arrow function captures `this` lexically from `app.activity`
itself: invoked as a method (`app.activity(...)`) it is the `app`
namespace object; invoked as a plain (destructured) function in strict
mode it is `undefined`. -/
inductive ThisBinding where
  | undefinedThis
  | namespaceObject
deriving DecidableEq, Repr

/-- Semantics of the expression `this.taskOrchestratorExecutor` at
`src/types.ts` line 226 under each possible `this` binding: a property
access on `undefined` throws a `TypeError`; the `app` namespace object has
no `taskOrchestratorExecutor` property, so the access yields `undefined`
(modelled as `none`). -/
def thisTaskOrchestratorExecutor :
    ThisBinding → Except JsError (Option TaskOrchestrationExecutor)
  | .undefinedThis => .error .typeError
  | .namespaceObject => .ok none

/-- The callable returned by `app.activity(activityName, options)`
(`src/types.ts` lines 213-233).  `options && options.input` and
`options && options.retryOptions` are modelled by `Option.bind`; when
retry options are present the callable builds
`CallActivityWithRetryAction(activityName, retryOptions, input)`, wraps it
in `AtomicTask(false, ·)` and then in
`RetryableTask(backingTask, retryOptions, this.taskOrchestratorExecutor)`;
otherwise it returns `AtomicTask(false, CallActivityAction(activityName,
input))`. -/
def activityCallable (activityName : String) (b : ThisBinding)
    (options : Option CallActivityOptions) : Except JsError DurableTask :=
  let input := options.bind CallActivityOptions.input
  match options.bind CallActivityOptions.retryOptions with
  | some ro =>
    match thisTaskOrchestratorExecutor b with
    | .error e => .error e
    | .ok exec =>
      .ok (.retryableTask (.atomicTask false (.callActivityWithRetry activityName ro input))
            ro exec)
  | none => .ok (.atomicTask false (.callActivity activityName input))

/-- A registered function input configuration object; `input.durableClient()`
produces one with `type: "durableClient"`. -/
structure FunctionInput where
  type : String
deriving DecidableEq, Repr

/-- The input configuration returned by `input.durableClient()`. -/
def durableClientInputCfg : FunctionInput := ⟨"durableClient"⟩

/-- Explicit store of JavaScript arrays of `FunctionInput`, addressed by
index, so that the in-place `options.extraInputs.push(clientInput)` of
`app.client` / `app.httpClient` / `app.clientify` — a mutation visible
through the caller's own array reference — is representable. -/
structure Heap where
  arrays : List (List FunctionInput)
deriving DecidableEq, Repr

/-- Read the array a reference designates (empty if dangling). -/
def readArr (h : Heap) (r : Nat) : List FunctionInput :=
  h.arrays.getD r []

/-- `arr.push(x)`: append `x` in place to the array `r` refers to. -/
def pushArr (h : Heap) (r : Nat) (x : FunctionInput) : Heap :=
  ⟨h.arrays.set r (readArr h r ++ [x])⟩

/-- Allocate a fresh array holding `xs`; returns the new heap and the
reference to the fresh array. -/
def allocArr (h : Heap) (xs : List FunctionInput) : Heap × Nat :=
  (⟨h.arrays ++ [xs]⟩, h.arrays.length)

/-- The caller's options object for `app.client` / `app.httpClient` / a
registrar produced by `app.clientify`: `extraInputs` is either `undefined`
or a reference to a caller-owned array; `handler` and `rest` stand for the
handler property and every other `FunctionOptions` field, which the
registration code reads but never writes on the caller's object. -/
structure DurableClientOptions where
  extraInputs : Option Nat
  handler : Nat
  rest : Nat
deriving DecidableEq, Repr

/-- Options objects are well formed when a present `extraInputs` reference
designates an existing array. -/
def OptionsWF (h : Heap) (opts : DurableClientOptions) : Prop :=
  ∀ r, opts.extraInputs = some r → r < h.arrays.length

/-- Mutation of the caller's options performed by `app.client`
(`src/types.ts` lines 268-287): if the caller supplied `extraInputs`, the
durable-client input is pushed onto that same array; otherwise
`options.extraInputs` is assigned a fresh one-element array.  Registration
then spreads `options` into a new object with a wrapped handler, so no
other field of the caller's object is written. -/
def appClientSetup (h : Heap) (opts : DurableClientOptions) :
    Heap × DurableClientOptions :=
  match opts.extraInputs with
  | some r => (pushArr h r durableClientInputCfg, opts)
  | none =>
    let a := allocArr h [durableClientInputCfg]
    (a.1, ⟨some a.2, opts.handler, opts.rest⟩)

/-- Mutation of the caller's options performed by `app.httpClient`
(`src/types.ts` lines 292-311); the `extraInputs` handling is the same
code as in `app.client`. -/
def appHttpClientSetup (h : Heap) (opts : DurableClientOptions) :
    Heap × DurableClientOptions :=
  match opts.extraInputs with
  | some r => (pushArr h r durableClientInputCfg, opts)
  | none =>
    let a := allocArr h [durableClientInputCfg]
    (a.1, ⟨some a.2, opts.handler, opts.rest⟩)

/-- Mutation of the caller's options performed by the registrar a call to
`app.clientify(register)` returns (`src/types.ts` lines 238-257); the
`extraInputs` handling is the same code as in `app.client`. -/
def clientifySetup (h : Heap) (opts : DurableClientOptions) :
    Heap × DurableClientOptions :=
  match opts.extraInputs with
  | some r => (pushArr h r durableClientInputCfg, opts)
  | none =>
    let a := allocArr h [durableClientInputCfg]
    (a.1, ⟨some a.2, opts.handler, opts.rest⟩)

/-- Resolution of one scheduled Task recorded in history:
`TaskCompleted{id, result}` or `TaskFailed{id, error}`. -/
inductive TaskResult where
  | completed (v : Value)
  | failed (e : Value)
deriving DecidableEq, Repr

/-- Modelled from the spec: one consumed slot of the History Event Log —
the `Orchestrator` class that consumes it is not under the visible source.
History events are correlated to Tasks by a strictly increasing sequence
number assigned at first creation, so the log is indexed positionally: the
entry at index `i` pairs the Action recorded by `TaskScheduled` at
sequence number `i` with its recorded `TaskCompleted`/`TaskFailed`
resolution; sequence numbers with no completed/failed record lie beyond
the end of the list. -/
structure HistoryEntry where
  action : Action
  completion : TaskResult
deriving DecidableEq, Repr

/-- Outcome of running user logic until its next suspension point: it
requests the result of a Task backed by an Action, returns a final output,
or raises an uncaught error. -/
inductive StepOutcome where
  | request (a : Action)
  | done (output : Value)
  | throwErr (e : Value)
deriving DecidableEq, Repr

/-- Modelled from the spec: user orchestration logic under the single-
threaded cooperative suspension model — a deterministic function of the
orchestration input and the sequence of Task results resolved so far
(determinism of user code is the spec's stated correctness precondition;
the generator in the source is not under the visible source). -/
def UserLogic : Type := Value → List TaskResult → StepOutcome

/-- Failure kinds an orchestration instance can terminate with:
`NonDeterminismDetected` (sequence-number / Action-type mismatch between
recorded history and the current replay) is distinct by construction from
`OrchestrationLogicError` (uncaught error from user code). -/
inductive FailureKind where
  | nonDeterminismDetected
  | orchestrationLogicError (e : Value)
deriving DecidableEq, Repr

/-- Output record handed back to the host: ordered list of newly created
Actions, `isDone`, `output` when done, `error` when the instance
terminated abnormally, and the final value of the engine's internal
sequence counter (the number of history entries consumed), exposed so
that sequence-number properties are statable. -/
structure OrchestratorState where
  actions : List Action
  isDone : Bool
  output : Option Value
  error : Option FailureKind
  seqCount : Nat
deriving DecidableEq, Repr

/-- Nondeterministic activation environment supplied by the host process
(wall clock, randomness).  The engine receives it but must never consult
it: the spec makes any dependence on it a user-code defect and requires
the engine itself to be a function of input and history alone. -/
structure ActivationEnv where
  wallClockMs : Nat
  randomSeed : Nat
deriving DecidableEq, Repr

/-- Modelled from the spec: the replay loop of the Orchestrator Execution
Engine (the `Orchestrator` class behind `createOrchestrator` is not under
the visible source).  Runs user logic to its next suspension; on `done` or
an uncaught error the invocation completes; on a Task request it consults
the history entry at the current sequence number: a recorded entry whose
Action matches resolves the Task directly from history (replay mode, no
Action emitted) and resumes synchronously; a recorded entry whose Action
differs is a fatal `NonDeterminismDetected` failure; no recorded entry
(catch-up mode) appends the Action to the outgoing list and ends the
invocation with `isDone = false`. -/
def advanceAux (logic : UserLogic) (input : Value) :
    List HistoryEntry → List TaskResult → List Action → Nat → OrchestratorState
  | [], results, acc, seq =>
    match logic input results with
    | .done v => ⟨acc, true, some v, none, seq⟩
    | .throwErr e => ⟨acc, true, none, some (.orchestrationLogicError e), seq⟩
    | .request a => ⟨acc ++ [a], false, none, none, seq⟩
  | entry :: rest, results, acc, seq =>
    match logic input results with
    | .done v => ⟨acc, true, some v, none, seq⟩
    | .throwErr e => ⟨acc, true, none, some (.orchestrationLogicError e), seq⟩
    | .request a =>
      if entry.action = a then
        advanceAux logic input rest (results ++ [entry.completion]) acc (seq + 1)
      else
        ⟨acc, true, none, some .nonDeterminismDetected, seq⟩

/-- Modelled from the spec: `advance(userLogic, history) -> OrchestratorState`,
one invocation of the engine for one activation.  The internal sequence
counter is reset to zero at the start of every invocation; the activation
environment is passed in but never consulted. -/
def advance (env : ActivationEnv) (logic : UserLogic) (input : Value)
    (hist : List HistoryEntry) : OrchestratorState :=
  advanceAux logic input hist [] [] 0

/-- The results delivered to user logic when the whole history log has
been replayed: the recorded completion of every consumed entry, in
sequence-number order. -/
def resultsOf (hist : List HistoryEntry) : List TaskResult :=
  hist.map HistoryEntry.completion

/-- User logic replays cleanly against a history log when, at every
recorded sequence number, the logic driven by the results of the preceding
entries requests exactly the Action recorded there. -/
def ReplaysCleanly (logic : UserLogic) (input : Value)
    (hist : List HistoryEntry) : Prop :=
  ∀ i, (h : i < hist.length) →
    logic input (resultsOf (hist.take i)) = .request (hist.get ⟨i, h⟩).action

/-- Modelled from the spec: the backoff computation of
`RetryableTask.handleError` (class not under the visible source) — the
interval before re-issuing the failed Action for attempt `n ≥ 1` is
`min(firstRetryIntervalMs * backoffCoefficient^(n-1), maxRetryIntervalMs)`. -/
def nextBackoffMs (p : RetryOptions) (attempt : Nat) : ℚ :=
  min (p.firstRetryIntervalMs * p.backoffCoefficient ^ (attempt - 1))
    p.maxRetryIntervalMs

/-- The retry policy of the spec's worked backoff example. -/
def backoffExamplePolicy : RetryOptions :=
  ⟨5, 1000, 2, 10000, none⟩

/-- Resolution status of one child Task of a compound task, stamped with
the position of its completion in completion order. -/
inductive ChildStatus where
  | pending
  | completedAt (t : Nat) (v : Value)
  | failedAt (t : Nat) (e : Value)
deriving DecidableEq, Repr

/-- Whether a child Task is still pending. -/
def isPendingChild : ChildStatus → Bool
  | .pending => true
  | _ => false

/-- The failure record of a child, if it failed: completion stamp and
error. -/
def failureOf : ChildStatus → Option (Nat × Value)
  | .failedAt t e => some (t, e)
  | _ => none

/-- The value of a child, if it completed. -/
def valueOf : ChildStatus → Option Value
  | .completedAt _ v => some v
  | _ => none

/-- Resolution state of a compound `WhenAll` task. -/
inductive AggregateState where
  | pending
  | completed (vs : List Value)
  | failed (e : Value)
deriving DecidableEq, Repr

/-- The failure with the least completion stamp, scanning left to right:
an earlier-failing child supersedes a later one. -/
def minFailure : Nat × Value → List (Nat × Value) → Nat × Value
  | f, [] => f
  | f, g :: gs => minFailure (if g.1 < f.1 then g else f) gs

/-- First failure in completion order among a list of failure records. -/
def firstFailure : List (Nat × Value) → Option (Nat × Value)
  | [] => none
  | f :: fs => some (minFailure f fs)

/-- Modelled from the spec: resolution of a `WhenAll` compound task over
its children (the `WhenAllTask` class is not under the visible source).
While any child is pending the aggregate is pending — it waits for all
children even when one has already failed, to preserve determinism of
subsequent scheduling; once all children have resolved it fails with the
first child failure in completion order, or completes with all child
values. -/
def whenAllState (children : List ChildStatus) : AggregateState :=
  if children.any isPendingChild then .pending
  else
    match firstFailure (children.filterMap failureOf) with
    | some f => .failed f.2
    | none => .completed (children.filterMap valueOf)

/-- One queued entity operation: name and input. -/
structure EntityOperation where
  name : String
  input : Value
deriving DecidableEq, Repr

/-- Effect of running user entity logic for one operation: the new state,
outgoing signals/calls collected (not executed in-line), and an optional
return value for a synchronous caller. -/
structure OpEffect where
  newState : Value
  signals : List Action
  result : Option Value
deriving DecidableEq, Repr

/-- User entity logic: receives the operation and the current state. -/
def EntityLogic : Type := EntityOperation → Value → OpEffect

/-- Outcome of one entity activation: final state blob, ordered outgoing
signals/calls, and per-operation results. -/
structure EntityState where
  state : Value
  outgoing : List Action
  results : List (Option Value)
deriving DecidableEq, Repr

/-- One step of the Entity Operation Processor: fold the effect of a
single operation into the accumulated entity state. -/
def entityStep (logic : EntityLogic) (st : EntityState)
    (op : EntityOperation) : EntityState :=
  let e := logic op st.state
  ⟨e.newState, st.outgoing ++ e.signals, st.results ++ [e.result]⟩

/-- Modelled from the spec:
`process(entityId, currentState, operationBatch) -> EntityState` of the
Entity Operation Processor (the `Entity` class behind
`createEntityFunction` is not under the visible source).  Operations are
applied strictly in delivery order, each exactly once, each operation's
state mutation folded into the state passed to the next; there are no
replay semantics because entity state is the durable checkpoint. -/
def processEntity (logic : EntityLogic) (entityId : String)
    (currentState : Value) (operationBatch : List EntityOperation) :
    EntityState :=
  operationBatch.foldl (entityStep logic) ⟨currentState, [], []⟩

/-- The `add(n): state += n` entity logic of the spec's worked example. -/
def addLogic : EntityLogic := fun op s =>
  match s, op.input with
  | .vnum a, .vnum b => ⟨.vnum (a + b), [], none⟩
  | _, _ => ⟨s, [], none⟩

/-- The spec's worked example batch `[add(2), add(3), add(-1)]`. -/
def addBatch : List EntityOperation :=
  [⟨"add", .vnum 2⟩, ⟨"add", .vnum 3⟩, ⟨"add", .vnum (-1)⟩]

/-- Concrete activation environment for worked examples. -/
def exEnv : ActivationEnv := ⟨0, 0⟩

/-- Concrete user logic for worked examples: requests activity `A`, then
activity `B`, then completes. -/
def exLogic : UserLogic := fun _ results =>
  match results with
  | [] => .request (.callActivity "A" none)
  | [_] => .request (.callActivity "B" none)
  | _ => .done (.vstr "fin")

/-- Concrete one-entry history for worked examples: activity `A` was
scheduled at sequence number 0 and completed. -/
def exHist : List HistoryEntry :=
  [⟨.callActivity "A" none, .completed (.vstr "r1")⟩]

/-- Concrete history entry that conflicts with what `exLogic` requests at
sequence number 1. -/
def exBadEntry : HistoryEntry :=
  ⟨.callActivity "C" none, .completed .vnull⟩

/-- Concrete children for the `WhenAll` worked example: child 2 fails,
children 1 and 3 succeed. -/
def exChildren : List ChildStatus :=
  [.completedAt 1 (.vstr "a"), .failedAt 2 (.vstr "boom"), .completedAt 3 (.vstr "c")]

/-- Concrete retry options for worked examples. -/
def exRetry : RetryOptions := ⟨3, 1000, 2, 10000, none⟩

/-- Concrete one-array heap for the client-registration worked example. -/
def exHeap : Heap := ⟨[[⟨"httpTrigger"⟩]]⟩

/-- Concrete client options referencing the array of `exHeap`. -/
def exOpts : DurableClientOptions := ⟨some 0, 5, 7⟩

/-! Theorems. -/

/-- C4: for every retry policy and every attempt number `n ≥ 1`, the
backoff interval before re-issuing the failed Action equals
`min(firstRetryIntervalMs * backoffCoefficient^(n-1), maxRetryIntervalMs)`;
for the policy `{firstRetryIntervalMs := 1000, backoffCoefficient := 2,
maxRetryIntervalMs := 10000}`, attempts 1 through 5 produce the intervals
1000, 2000, 4000, 8000, 10000. -/
theorem c4_retry_backoff :
    (∀ (p : RetryOptions) (n : Nat),
      nextBackoffMs p (n + 1) =
        min (p.firstRetryIntervalMs * p.backoffCoefficient ^ n) p.maxRetryIntervalMs) ∧
    [1, 2, 3, 4, 5].map (nextBackoffMs backoffExamplePolicy) =
      [1000, 2000, 4000, 8000, 10000] := by
  constructor
  · intro p n
    rfl
  · simp only [List.map_cons, List.map_nil, nextBackoffMs, backoffExamplePolicy]
    norm_num

/-- Folding one more operation: the Entity Operation Processor applied to
`ops ++ [op]` is one `entityStep` after processing `ops`. -/
theorem processEntity_append (logic : EntityLogic) (entityId : String)
    (currentState : Value) (ops : List EntityOperation) (op : EntityOperation) :
    processEntity logic entityId currentState (ops ++ [op]) =
      entityStep logic (processEntity logic entityId currentState ops) op := by
  simp [processEntity, List.foldl_append]

/-- Each operation of a batch contributes exactly one per-operation result
record. -/
theorem entity_results_length (logic : EntityLogic)
    (ops : List EntityOperation) (st : EntityState) :
    (ops.foldl (entityStep logic) st).results.length =
      st.results.length + ops.length := by
  induction ops generalizing st with
  | nil => simp
  | cons op t ih =>
    rw [List.foldl_cons, ih]
    simp [entityStep]
    omega

/-- C6: the Entity Operation Processor applies each operation of a batch
exactly once, strictly in delivery order, folding each operation's state
mutation into the state passed to the next (the state after `ops ++ [op]`
is the effect of `op` on the state after `ops`, and each operation
contributes exactly one result record); the batch
`[add(2), add(3), add(-1)]` applied to state 0 under `add(n): state += n`
yields final state 4. -/
theorem c6_entity_batch_order :
    (∀ (logic : EntityLogic) (entityId : String) (currentState : Value)
        (ops : List EntityOperation) (op : EntityOperation),
      (processEntity logic entityId currentState (ops ++ [op])).state =
        (logic op (processEntity logic entityId currentState ops).state).newState) ∧
    (∀ (logic : EntityLogic) (entityId : String) (currentState : Value)
        (ops : List EntityOperation),
      (processEntity logic entityId currentState ops).results.length = ops.length) ∧
    (processEntity addLogic "counter" (.vnum 0) addBatch).state = .vnum 4 := by
  refine ⟨?_, ?_, ?_⟩
  · intro logic entityId currentState ops op
    rw [processEntity_append]
    rfl
  · intro logic entityId currentState ops
    have := entity_results_length logic ops ⟨currentState, [], []⟩
    simpa [processEntity] using this
  · rfl

/-- C7: the callable returned by `app.activity(activityName, options)`,
invoked as `app.activity` delivers it: when the call options contain
`retryOptions` the result is a `RetryableTask` wrapping an `AtomicTask`
whose action is `CallActivityWithRetryAction(activityName, retryOptions,
input)`; otherwise the result is a not-completed `AtomicTask` whose action
is `CallActivityAction(activityName, input)`. -/
theorem c7_activity_callable_shape (activityName : String)
    (opts : CallActivityOptions) :
    activityCallable activityName .namespaceObject (some opts) =
      match opts.retryOptions with
      | some ro =>
        .ok (.retryableTask
              (.atomicTask false (.callActivityWithRetry activityName ro opts.input))
              ro none)
      | none => .ok (.atomicTask false (.callActivity activityName opts.input)) := by
  cases h : opts.retryOptions <;>
    simp [activityCallable, thisTaskOrchestratorExecutor, h]

/-- C9: the scheduler argument of the `RetryableTask` built by the
activity callable is `this.taskOrchestratorExecutor`, and no `this`
binding of the callable carries such a property (a plain strict-mode call
throws a `TypeError`; a method call finds no such property on the `app`
namespace object), so every task the callable successfully returns —
retry-enabled ones included — carries no orchestrator executor. -/
theorem c9_no_executor_ever_supplied (activityName : String)
    (b : ThisBinding) (options : Option CallActivityOptions)
    (t : DurableTask)
    (h : activityCallable activityName b options = .ok t) :
    taskExecutor t = none := by
  unfold activityCallable at h
  cases hr : options.bind CallActivityOptions.retryOptions with
  | none =>
    rw [hr] at h
    cases h
    rfl
  | some ro =>
    rw [hr] at h
    cases b with
    | undefinedThis => simp [thisTaskOrchestratorExecutor] at h
    | namespaceObject =>
      simp only [thisTaskOrchestratorExecutor] at h
      cases h
      rfl

/-- Witness for C9 at a concrete retry-enabled call: the returned
`RetryableTask` carries no executor. -/
theorem c9_witness :
    taskExecutor
      (.retryableTask
        (.atomicTask false (.callActivityWithRetry "A" exRetry none))
        exRetry none) = none :=
  c9_no_executor_ever_supplied "A" .namespaceObject
    (some ⟨none, some exRetry⟩)
    (.retryableTask
      (.atomicTask false (.callActivityWithRetry "A" exRetry none))
      exRetry none)
    rfl

/-- The minimum-stamp failure selected by `minFailure` is one of the
candidates. -/
theorem minFailure_mem (f : Nat × Value) (fs : List (Nat × Value)) :
    minFailure f fs = f ∨ minFailure f fs ∈ fs := by
  induction fs generalizing f with
  | nil => exact Or.inl rfl
  | cons g gs ih =>
    simp only [minFailure]
    by_cases hg : g.1 < f.1
    · rw [if_pos hg]
      rcases ih g with hh | hh
      · right
        rw [hh]
        exact List.mem_cons_self g gs
      · right
        exact List.mem_cons_of_mem g hh
    · rw [if_neg hg]
      rcases ih f with hh | hh
      · exact Or.inl hh
      · right
        exact List.mem_cons_of_mem g hh

/-- The failure selected by `minFailure` has the least completion stamp
among all candidates. -/
theorem minFailure_least (f : Nat × Value) (fs : List (Nat × Value)) :
    (minFailure f fs).1 ≤ f.1 ∧ ∀ g ∈ fs, (minFailure f fs).1 ≤ g.1 := by
  induction fs generalizing f with
  | nil => exact ⟨le_refl _, by simp⟩
  | cons g gs ih
    =>
    simp only [minFailure]
    by_cases hg : g.1 < f.1
    · rw [if_pos hg]
      obtain ⟨h1, h2⟩ := ih g
      refine ⟨le_of_lt (lt_of_le_of_lt h1 hg), ?_⟩
      intro x hx
      rcases List.mem_cons.mp hx with rfl | hx
      · exact h1
      · exact h2 x hx
    · rw [if_neg hg]
      obtain ⟨h1, h2⟩ := ih f
      refine ⟨h1, ?_⟩
      intro x hx
      rcases List.mem_cons.mp hx with rfl | hx
      · exact le_trans h1 (not_lt.mp hg)
      · exact h2 x hx

/-- A child list has a pending member exactly when `List.any
isPendingChild` says so. -/
theorem any_pending_iff (children : List ChildStatus) :
    children.any isPendingChild = true ↔ ChildStatus.pending ∈ children := by
  rw [List.any_eq_true]
  constructor
  · rintro ⟨c, hc, hpc⟩
    cases c with
    | pending => exact hc
    | completedAt t v => simp [isPendingChild] at hpc
    | failedAt t e => simp [isPendingChild] at hpc
  · intro hmem
    exact ⟨ChildStatus.pending, hmem, rfl⟩

/-- C5: a `WhenAll` compound task one of whose children has failed
resolves only after every child has resolved — while any child is still
pending the aggregate is pending — and once all children have resolved it
resolves `Failed`, carrying the error of the first child failure in
completion order (a failure record of minimal completion stamp). -/
theorem c5_whenall_first_failure (children : List ChildStatus)
    (t : Nat) (e : Value)
    (hfail : ChildStatus.failedAt t e ∈ children) :
    (ChildStatus.pending ∈ children → whenAllState children = .pending) ∧
    (ChildStatus.pending ∉ children →
      ∃ p : Nat × Value,
        whenAllState children = .failed p.2 ∧
        p ∈ children.filterMap failureOf ∧
        ∀ q ∈ children.filterMap failureOf, p.1 ≤ q.1) := by
  constructor
  · intro hp
    unfold whenAllState
    rw [if_pos ((any_pending_iff children).mpr hp)]
  · intro hp
    have hany : children.any isPendingChild = false := by
      rcases Bool.eq_false_or_eq_true (children.any isPendingChild) with hh | hh
      · exact absurd ((any_pending_iff children).mp hh) hp
      · exact hh
    have hmem : (t, e) ∈ children.filterMap failureOf :=
      List.mem_filterMap.mpr ⟨ChildStatus.failedAt t e, hfail, rfl⟩
    cases hl : children.filterMap failureOf with
    | nil =>
      rw [hl] at hmem
      cases hmem
    | cons f fs =>
      refine ⟨minFailure f fs, ?_, ?_, ?_⟩
      · unfold whenAllState
        rw [if_neg (by rw [hany]; exact Bool.false_ne_true), hl]
        rfl
      · rcases minFailure_mem f fs with hh | hh
        · rw [hh]
          exact List.mem_cons_self f fs
        · exact List.mem_cons_of_mem f hh
      · intro q hq
        rcases List.mem_cons.mp hq with hq1 | hq1
        · rw [hq1]
          exact (minFailure_least f fs).1
        · exact (minFailure_least f fs).2 q hq1

/-- Witness for C5 at the spec's worked example (3 children, child 2
fails at completion stamp 2, children 1 and 3 succeed): the aggregate
resolves `Failed` with child 2's error. -/
theorem c5_witness : whenAllState exChildren = .failed (.vstr "boom") := by
  obtain ⟨p, h1, h2, _⟩ :=
    (c5_whenall_first_failure exChildren 2 (.vstr "boom") (by decide)).2 (by decide)
  have hfm : exChildren.filterMap failureOf = [(2, Value.vstr "boom")] := rfl
  rw [hfm] at h2
  have hp : p = (2, Value.vstr "boom") := List.mem_singleton.mp h2
  rw [hp] at h1
  exact h1

/-- C1: two-run determinism of replay — for a fixed orchestration input
and a fixed prior history, two invocations of `advance` under arbitrary
(and arbitrarily different) activation environments produce identical
emitted Action lists, identical `isDone` flags, identical outputs, and
identical sequence-number assignment: the engine is a function of input
and history alone and never consults the environment. -/
theorem c1_advance_deterministic (env₁ env₂ : ActivationEnv)
    (logic : UserLogic) (input : Value) (hist : List HistoryEntry) :
    advance env₁ logic input hist = advance env₂ logic input hist := rfl

/-- Replay of `advanceAux` either emits no Action at all, or emits exactly
one, in which case the sequence counter has consumed the whole remaining
history and the invocation is not done. -/
theorem advanceAux_actions_spec (logic : UserLogic) (input : Value) :
    ∀ (hist : List HistoryEntry) (results : List TaskResult)
      (acc : List Action) (seq : Nat),
      (advanceAux logic input hist results acc seq).actions = acc ∨
      ∃ a, (advanceAux logic input hist results acc seq).actions = acc ++ [a] ∧
        (advanceAux logic input hist results acc seq).seqCount = seq + hist.length ∧
        (advanceAux logic input hist results acc seq).isDone = false := by
  intro hist
  induction hist with
  | nil =>
    intro results acc seq
    cases hlo : logic input results with
    | request a =>
      right
      exact ⟨a, by simp [advanceAux, hlo], by simp [advanceAux, hlo],
        by simp [advanceAux, hlo]⟩
    | done v => exact Or.inl (by simp [advanceAux, hlo])
    | throwErr e => exact Or.inl (by simp [advanceAux, hlo])
  | cons entry rest ih =>
    intro results acc seq
    cases hlo : logic input results with
    | done v => exact Or.inl (by simp [advanceAux, hlo])
    | throwErr e => exact Or.inl (by simp [advanceAux, hlo])
    | request a =>
      by_cases hact : entry.action = a
      · have hstep : advanceAux logic input (entry :: rest) results acc seq =
            advanceAux logic input rest (results ++ [entry.completion]) acc (seq + 1) := by
          simp [advanceAux, hlo, hact]
        rw [hstep]
        rcases ih (results ++ [entry.completion]) acc (seq + 1) with hh | ⟨a2, h1, h2, h3⟩
        · exact Or.inl hh
        · right
          refine ⟨a2, h1, ?_, h3⟩
          rw [h2]
          simp
          omega
      · exact Or.inl (by simp [advanceAux, hlo, hact])

/-- C2: replay never duplicates an already-recorded Action — every Action
an invocation of `advance` emits is emitted at the first sequence number
past the recorded history (whose entries all carry
`TaskCompleted`/`TaskFailed` records and are resolved directly from
history), the invocation emits at most that one Action, and it ends not
done. -/
theorem c2_no_duplicate_actions (env : ActivationEnv) (logic : UserLogic)
    (input : Value) (hist : List HistoryEntry) (a : Action)
    (hmem : a ∈ (advance env logic input hist).actions) :
    (advance env logic input hist).actions = [a] ∧
    (advance env logic input hist).seqCount = hist.length ∧
    (advance env logic input hist).isDone = false := by
  have hs := advanceAux_actions_spec logic input hist [] [] 0
  unfold advance at hmem ⊢
  rcases hs with h0 | ⟨a2, h1, h2, h3⟩
  · rw [h0] at hmem
    cases hmem
  · rw [h1] at hmem
    have ha : a = a2 := by simpa using hmem
    rw [ha, h1, h2, h3]
    exact ⟨by simp, by simp, rfl⟩

/-- Witness for C2 at a concrete run: with empty history, `exLogic` has
its one emitted Action at sequence number 0 = length of history, and the
invocation ends not done. -/
theorem c2_witness :
    (advance exEnv exLogic Value.vnull []).actions = [Action.callActivity "A" none] ∧
    (advance exEnv exLogic Value.vnull []).isDone = false := by
  have hh := c2_no_duplicate_actions exEnv exLogic Value.vnull []
    (Action.callActivity "A" none)
    (by
      have he : (advance exEnv exLogic Value.vnull []).actions =
          [Action.callActivity "A" none] := rfl
      rw [he]
      exact List.mem_singleton.mpr rfl)
  exact ⟨hh.1, hh.2.2⟩

/-- Replaying a clean history prefix reduces `advanceAux` to running user
logic on the results recorded by that prefix: each consumed entry resolves
its Task directly from history, emits nothing, and advances the sequence
counter by one. -/
theorem advanceAux_replay (logic : UserLogic) (input : Value) :
    ∀ (hist₁ hist₂ : List HistoryEntry) (results : List TaskResult)
      (acc : List Action) (seq : Nat),
      (∀ i, (h : i < hist₁.length) →
        logic input (results ++ resultsOf (hist₁.take i)) =
          .request (hist₁.get ⟨i, h⟩).action) →
      advanceAux logic input (hist₁ ++ hist₂) results acc seq =
        advanceAux logic input hist₂ (results ++ resultsOf hist₁) acc
          (seq + hist₁.length) := by
  intro hist₁
  induction hist₁ with
  | nil =>
    intro hist₂ results acc seq hclean
    simp [resultsOf]
  | cons entry rest ih =>
    intro hist₂ results acc seq hclean
    have h0 : logic input results = .request entry.action := by
      have := hclean 0 (by simp)
      simpa [resultsOf] using this
    rw [List.cons_append]
    have hstep : advanceAux logic input (entry :: (rest ++ hist₂)) results acc seq =
        advanceAux logic input (rest ++ hist₂) (results ++ [entry.completion]) acc
          (seq + 1) := by
      simp [advanceAux, h0]
    rw [hstep]
    have hclean2 : ∀ i, (h : i < rest.length) →
        logic input ((results ++ [entry.completion]) ++ resultsOf (rest.take i)) =
          .request (rest.get ⟨i, h⟩).action := by
      intro i h
      have := hclean (i + 1) (by simpa using Nat.succ_lt_succ h)
      simpa [resultsOf, List.append_assoc] using this
    rw [ih hist₂ (results ++ [entry.completion]) acc (seq + 1) hclean2]
    have e1 : (results ++ [entry.completion]) ++ resultsOf rest =
        results ++ resultsOf (entry :: rest) := by
      simp [resultsOf]
    have e2 : seq + 1 + rest.length = seq + (entry :: rest).length := by
      simp
      omega
    rw [e1, e2]

/-- C3: catch-up mode — when user logic replays cleanly through the whole
recorded history and then suspends on a Task whose sequence number has no
completion record, `advance` appends that Task's Action to the outgoing
list and ends the invocation with `isDone = false` and no output (the
Task is left pending: its result is delivered only by a future
invocation's history). -/
theorem c3_catchup_emits_action (env : ActivationEnv) (logic : UserLogic)
    (input : Value) (hist : List HistoryEntry) (a : Action)
    (hclean : ReplaysCleanly logic input hist)
    (hreq : logic input (resultsOf hist) = .request a) :
    advance env logic input hist = ⟨[a], false, none, none, hist.length⟩ := by
  unfold advance
  have h2 := advanceAux_replay logic input hist [] [] [] 0 (by
    intro i h
    simpa using hclean i h)
  rw [List.append_nil] at h2
  rw [h2]
  simp [advanceAux, hreq]

/-- Witness for C3 at a concrete run: `exLogic` replays the one-entry
history `exHist` cleanly and then suspends on activity `B`; the invocation
emits exactly `CallActivity("B")` and ends not done. -/
theorem c3_witness :
    advance exEnv exLogic Value.vnull exHist =
      ⟨[Action.callActivity "B" none], false, none, none, 1⟩ := by
  apply c3_catchup_emits_action exEnv exLogic Value.vnull exHist
    (Action.callActivity "B" none) ?_ rfl
  intro i h
  cases i with
  | zero => rfl
  | succ n =>
    exfalso
    simp [exHist] at h

/-- C8: a sequence-number / Action-type mismatch between recorded history
and the current replay is fatal — the instance is marked failed with
`NonDeterminismDetected`, no output and no further Actions, the remaining
history is not consumed (the condition is not silently recovered), and the
failure is distinguishable by construction from every business-logic
`OrchestrationLogicError` failure. -/
theorem c8_nondeterminism_detected (env : ActivationEnv) (logic : UserLogic)
    (input : Value) (pre rest : List HistoryEntry) (entry : HistoryEntry)
    (a : Action)
    (hclean : ReplaysCleanly logic input pre)
    (hreq : logic input (resultsOf pre) = .request a)
    (hmism : entry.action ≠ a) :
    advance env logic input (pre ++ entry :: rest) =
      ⟨[], true, none, some .nonDeterminismDetected, pre.length⟩ ∧
    ∀ e, (FailureKind.nonDeterminismDetected : FailureKind) ≠
      .orchestrationLogicError e := by
  refine ⟨?_, fun e hcontra => FailureKind.noConfusion hcontra⟩
  unfold advance
  have h2 := advanceAux_replay logic input pre (entry :: rest) [] [] 0 (by
    intro i h
    simpa using hclean i h)
  rw [h2]
  simp [advanceAux, hreq, hmism]

/-- Witness for C8 at a concrete run: after cleanly replaying `exHist`,
`exLogic` requests activity `B` but the next recorded entry scheduled
activity `C`; the invocation fails with `NonDeterminismDetected`. -/
theorem c8_witness :
    advance exEnv exLogic Value.vnull (exHist ++ [exBadEntry]) =
      ⟨[], true, none, some .nonDeterminismDetected, 1⟩ := by
  have hh := c8_nondeterminism_detected exEnv exLogic Value.vnull exHist []
    exBadEntry (Action.callActivity "B" none) ?_ rfl (by decide)
  · exact hh.1
  · intro i h
    cases i with
    | zero => rfl
    | succ n =>
      exfalso
      simp [exHist] at h

/-- Updating a list at an in-bounds index changes the value read there. -/
theorem list_getD_set_self {α : Type} (l : List α) (r : Nat) (x d : α)
    (hr : r < l.length) : (l.set r x).getD r d = x := by
  induction l generalizing r with
  | nil => simp at hr
  | cons a t ih =>
    cases r with
    | zero => exact List.getD_cons_zero
    | succ n =>
      show (a :: t.set n x).getD (n + 1) d = x
      rw [List.getD_cons_succ]
      exact ih n (by simpa using hr)

/-- Updating a list at one index leaves every other index unchanged. -/
theorem list_getD_set_ne {α : Type} (l : List α) (r r2 : Nat) (x d : α)
    (hne : r2 ≠ r) : (l.set r x).getD r2 d = l.getD r2 d := by
  induction l generalizing r r2 with
  | nil => rfl
  | cons a t ih =>
    cases r with
    | zero =>
      cases r2 with
      | zero => exact absurd rfl hne
      | succ m =>
        show (x :: t).getD (m + 1) d = (a :: t).getD (m + 1) d
        rw [List.getD_cons_succ, List.getD_cons_succ]
    | succ n =>
      cases r2 with
      | zero => rfl
      | succ m =>
        show (a :: t.set n x).getD (m + 1) d = (a :: t).getD (m + 1) d
        rw [List.getD_cons_succ, List.getD_cons_succ]
        exact ih n m (fun hh => hne (by rw [hh]))

/-- Appending to a list does not change reads at in-bounds indices. -/
theorem list_getD_append_lt {α : Type} (l m : List α) (r : Nat) (d : α)
    (hr : r < l.length) : (l ++ m).getD r d = l.getD r d := by
  induction l generalizing r with
  | nil => simp at hr
  | cons a t ih =>
    cases r with
    | zero => rfl
    | succ n =>
      show (a :: (t ++ m)).getD (n + 1) d = (a :: t).getD (n + 1) d
      rw [List.getD_cons_succ, List.getD_cons_succ]
      exact ih n (by simpa using hr)

/-- Reading a one-element extension of a list at the old length yields the
new element. -/
theorem list_getD_append_self {α : Type} (l : List α) (x d : α) :
    (l ++ [x]).getD l.length d = x := by
  induction l with
  | nil => rfl
  | cons a t ih =>
    show (a :: (t ++ [x])).getD (t.length + 1) d = x
    rw [List.getD_cons_succ]
    exact ih

/-- C10: `app.client`, `app.httpClient` and a registrar produced by
`app.clientify` perform the identical `extraInputs` mutation on the
caller's options: afterwards `extraInputs` references an array containing
the durable-client input — pushed in place onto the caller's own array
when one was supplied (the caller's object itself is returned unchanged
and sees the mutation through its array), otherwise assigned as a fresh
one-element array — while the handler and every other field of the
caller's options object, and every other array of the heap, are left
untouched. -/
theorem c10_client_registration_effect (h : Heap) (opts : DurableClientOptions)
    (hwf : OptionsWF h opts) :
    appHttpClientSetup h opts = appClientSetup h opts ∧
    clientifySetup h opts = appClientSetup h opts ∧
    (appClientSetup h opts).2.handler = opts.handler ∧
    (appClientSetup h opts).2.rest = opts.rest ∧
    (∃ r, (appClientSetup h opts).2.extraInputs = some r ∧
      durableClientInputCfg ∈ readArr (appClientSetup h opts).1 r) ∧
    (∀ r, opts.extraInputs = some r →
      (appClientSetup h opts).2 = opts ∧
      readArr (appClientSetup h opts).1 r = readArr h r ++ [durableClientInputCfg] ∧
      ∀ r2, r2 ≠ r → readArr (appClientSetup h opts).1 r2 = readArr h r2) ∧
    (opts.extraInputs = none →
      (appClientSetup h opts).2 =
        ⟨some h.arrays.length, opts.handler, opts.rest⟩ ∧
      readArr (appClientSetup h opts).1 h.arrays.length = [durableClientInputCfg] ∧
      ∀ r2, r2 < h.arrays.length →
        readArr (appClientSetup h opts).1 r2 = readArr h r2) := by
  cases hx : opts.extraInputs with
  | some r =>
    have hr : r < h.arrays.length := hwf r hx
    have hread : readArr (pushArr h r durableClientInputCfg) r =
        readArr h r ++ [durableClientInputCfg] := by
      unfold readArr pushArr
      exact list_getD_set_self h.arrays r (readArr h r ++ [durableClientInputCfg]) [] hr
    refine ⟨by simp [appHttpClientSetup, appClientSetup, hx],
      by simp [clientifySetup, appClientSetup, hx], ?_, ?_, ?_, ?_, ?_⟩
    · simp [appClientSetup, hx]
    · simp [appClientSetup, hx]
    · refine ⟨r, by simp [appClientSetup, hx], ?_⟩
      simp only [appClientSetup, hx]
      rw [hread]
      simp
    · intro r1 hr1
      have hrr : r1 = r := ((Option.some.injEq r r1).mp hr1).symm
      subst hrr
      refine ⟨by simp [appClientSetup, hx], by simpa [appClientSetup, hx] using hread, ?_⟩
      intro r2 hne
      simp only [appClientSetup, hx]
      unfold readArr pushArr
      exact list_getD_set_ne h.arrays r1 r2 _ [] hne
    · intro hnone
      cases hnone
  | none =>
    refine ⟨by simp [appHttpClientSetup, appClientSetup, hx],
      by simp [clientifySetup, appClientSetup, hx], ?_, ?_, ?_, ?_, ?_⟩
    · simp [appClientSetup, hx, allocArr]
    · simp [appClientSetup, hx, allocArr]
    · refine ⟨h.arrays.length, by simp [appClientSetup, hx, allocArr], ?_⟩
      simp only [appClientSetup, hx, allocArr]
      unfold readArr
      rw [list_getD_append_self h.arrays [durableClientInputCfg] []]
      exact List.mem_singleton.mpr rfl
    · intro r1 hr1
      cases hr1
    · intro _
      refine ⟨by simp [appClientSetup, hx, allocArr], ?_, ?_⟩
      · simp only [appClientSetup, hx, allocArr]
        unfold readArr
        exact list_getD_append_self h.arrays [durableClientInputCfg] []
      · intro r2 hr2
        simp only [appClientSetup, hx, allocArr]
        unfold readArr
        exact list_getD_append_lt h.arrays [[durableClientInputCfg]] r2 [] hr2

/-- Witness for C10 at a concrete heap and options: the caller's array
gains the durable-client input in place, the options object is returned
unchanged, and its other fields are untouched. -/
theorem c10_witness :
    (appClientSetup exHeap exOpts).2 = exOpts ∧
    readArr (appClientSetup exHeap exOpts).1 0 =
      [⟨"httpTrigger"⟩, durableClientInputCfg] ∧
    (appClientSetup exHeap exOpts).2.handler = 5 := by
  have hwf : OptionsWF exHeap exOpts := by
    intro r hr
    have : r = 0 := by
      have hx : exOpts.extraInputs = some 0 := rfl
      rw [hx] at hr
      exact (Option.some.injEq r 0).mp hr.symm
    rw [this]
    exact Nat.zero_lt_one
  have hh := c10_client_registration_effect exHeap exOpts hwf
  obtain ⟨hob, hrd, _⟩ := (hh.2.2.2.2.2.1) 0 rfl
  exact ⟨hob, by rw [hrd]; rfl, by rw [hob]; rfl⟩

end DurableJS
